import Mathlib

/-!
Verification development for the HassIL template-to-expression compiler
(`parser/hassil/expression_listener.py`).

The listener transforms the event stream of an external grammar parser into
`Sentence`/`Sequence`/`Expression` trees.  The Python code keeps a mutable
stack `self._sequences : List[Optional[Sequence]]` whose entries alias the
tree under construction: a sequence pushed by `enterAlt` is simultaneously
the last element of its enclosing scope's `items`.  This embedding de-aliases
that representation: stack entries own their items, and the trailing
alternative branches of a scope are kept as the stack entries above it inside
the same marker region; they are re-attached to the scope's `items` exactly
when the scope is popped (`popGroup`) or when the sentence is sealed
(`finishBottom`).  On every state the Python code can actually reach this
yields the same trees, because the only code that reads a scope's `items`
while branches are stacked above it is `enterAlt`'s conversion check, and a
scope always becomes an ALTERNATIVE before any branch is stacked above it.

The stack is represented with its top as the head of the list.
Python `assert` failures and `IndexError`s are modelled as `none`.
-/

namespace Hassil

/-- `SequenceType` from `expression.py` (modelled from the spec: kind of a
sequence, GROUP = concatenation, ALTERNATIVE = choice). -/
inductive SequenceType where
  | group
  | alternative
deriving DecidableEq, Repr

/-- The `Expression` variants from `expression.py` (modelled from the spec §3:
a closed set of variants `Word`, `Number`, `NumberRange`, `ListReference`,
`RuleReference`, `Sequence(kind, items)`).  A `Sentence` is a root sequence of
kind GROUP. -/
inductive Expression where
  | word (text : String)
  | number (value : Int)
  | numberRange (lowerBound upperBound step : Int)
  | listReference (listName : String)
  | ruleReference (ruleName : String)
  | sequence (type : SequenceType) (items : List Expression)
deriving Repr

/-- An entry of the listener's `_sequences` stack: either the `None` group
marker (`GROUP_MARKER`) or an in-progress sequence. -/
inductive StackEntry where
  | marker
  | seq (type : SequenceType) (items : List Expression)
deriving Repr

/-- View of a stack entry as a finished expression (markers have none). -/
def asSeqExpr : StackEntry → Option Expression
  | StackEntry.marker => none
  | StackEntry.seq t items => some (Expression.sequence t items)

/-- State of `HassILExpressionListener` (`__init__`, lines 31-41):
`sentences` collects finished trees, `sentenceOpen` models
`self._sentence is not None`, and `stack` models `self._sequences`
(head = top of the Python list). -/
structure ListenerState where
  sentences : List Expression
  sentenceOpen : Bool
  stack : List StackEntry
deriving Repr

/-- The structural parse events the external grammar front-end delivers to
the listener (spec §6: sentence start/end, group start/end, optional
start/end, alternation separator, rule reference, list reference, word
token with its raw text). -/
inductive Event where
  | enterSentence
  | exitSentence
  | enterGroup
  | exitGroup
  | enterOptional
  | exitOptional
  | enterAlt
  | enterRuleRef (name : String)
  | enterListRef (name : String)
  | enterWord (text : String)
deriving DecidableEq, Repr

/-! ### Token classifier helpers

`enterWord` (lines 117-141) strips the raw token, removes escapes and quotes
(`remove_escapes`, `remove_quotes` from `expression.py`, not under `src/`),
then tries `NUMBER_PATTERN` and `NUMBER_RANGE_PATTERN` in that order. -/

/-- Models Python `str.strip()` (used at line 119): drop whitespace from both
ends of the character list. -/
def stripChars (cs : List Char) : List Char :=
  ((cs.dropWhile Char.isWhitespace).reverse.dropWhile Char.isWhitespace).reverse

/-- Python `word_text.strip()` on strings. -/
def strip (s : String) : String :=
  String.mk (stripChars s.data)

/-- Modelled from the spec (§6, `remove_escapes` of `expression.py` is not
under `src/`): "replaces each backslash-escaped character with the literal
character, leaving all other characters unchanged". -/
def removeEscapesChars : List Char → List Char
  | [] => []
  | '\\' :: c :: rest => c :: removeEscapesChars rest
  | c :: rest => c :: removeEscapesChars rest

/-- `remove_escapes` on strings. -/
def remove_escapes (s : String) : String :=
  String.mk (removeEscapesChars s.data)

/-- Modelled from the spec (§6, `remove_quotes` of `expression.py` is not
under `src/`): "strips one matching outer pair of quote characters if, and
only if, they wrap the entire token". -/
def removeQuotesChars (cs : List Char) : List Char :=
  match cs with
  | c :: _ :: _ =>
      if (c = '"' ∨ c = '\'') ∧ cs.getLast? = some c then
        (cs.drop 1).dropLast
      else cs
  | _ => cs

/-- `remove_quotes` on strings. -/
def remove_quotes (s : String) : String :=
  String.mk (removeQuotesChars s.data)

/-- Numeric value of a digit list (most significant first). -/
def digitsToNat (cs : List Char) : Nat :=
  cs.foldl (fun acc c => acc * 10 + (c.toNat - 48)) 0

/-- Modelled from the spec (§4.1, `NUMBER_PATTERN` of `expression.py` is not
under `src/`): the integer pattern matches the whole token, an optional
(minus) sign followed by one or more digits; the captured group is the signed
integer value. -/
def numberPatternMatch (s : String) : Option Int :=
  match s.data with
  | '-' :: rest =>
      if rest ≠ [] ∧ rest.all Char.isDigit then some (-(digitsToNat rest : Int)) else none
  | cs =>
      if cs ≠ [] ∧ cs.all Char.isDigit then some (digitsToNat cs : Int) else none

/-- Modelled from the spec (§4.1, `NUMBER_RANGE_PATTERN` of `expression.py`
is not under `src/`): the range pattern matches the whole token of the form
`lower..upper` or `lower..upper..step`, each part one or more digits; the
step group is absent in the two-part form. -/
def numberRangePatternMatch (s : String) : Option (Int × Int × Option Int) :=
  let (lo, rest) := s.data.span Char.isDigit
  if lo = [] then none
  else
    match rest with
    | '.' :: '.' :: rest2 =>
        let (hi, rest3) := rest2.span Char.isDigit
        if hi = [] then none
        else
          match rest3 with
          | [] => some ((digitsToNat lo : Int), (digitsToNat hi : Int), none)
          | '.' :: '.' :: rest4 =>
              let (st, rest5) := rest4.span Char.isDigit
              if st = [] ∨ rest5 ≠ [] then none
              else some ((digitsToNat lo : Int), (digitsToNat hi : Int),
                         some (digitsToNat st : Int))
          | _ => none
    | _ => none

/-- Body of `enterWord` (lines 117-138): strip, remove escapes, remove
quotes, then classify: integer pattern first, then range pattern (step
defaulting to 1, as `match.groupdict().get("step") or "1"`), else a plain
`Word` of the processed text. -/
def classifyWord (raw : String) : Expression :=
  let t := remove_quotes (remove_escapes (strip raw))
  match numberPatternMatch t with
  | some n => Expression.number n
  | none =>
      match numberRangePatternMatch t with
      | some (lo, hi, st) => Expression.numberRange lo hi (st.getD 1)
      | none => Expression.word t

/-! ### Stack operations -/

/-- `last_sequence.items.append e` (property at lines 153-159 plus the
append): fails when the stack is empty or a marker is on top (the asserts of
`last_sequence`); otherwise appends `e` to the items of the top sequence. -/
def appendToTarget (stack : List StackEntry) (e : Expression) :
    Option (List StackEntry) :=
  match stack with
  | [] => none
  | StackEntry.marker :: _ => none
  | StackEntry.seq t items :: rest => some (StackEntry.seq t (items ++ [e]) :: rest)

/-- Loop of `_pop_group` (lines 178-191): `item` is the entry popped last so
far, `popped` are the entries popped before it (bottom-up, i.e. the trailing
alternative branches of the scope being popped); stop when a marker is next,
re-attach the collected branches to the scope's items, and drop the marker.
Fails (`IndexError`) when the stack runs out, and (`assert item is not None`)
when the last popped entry is the marker itself. -/
def popGroupLoop (item : StackEntry) (popped : List StackEntry) :
    List StackEntry → Option ((SequenceType × List Expression) × List StackEntry)
  | [] => none
  | StackEntry.marker :: rest =>
      match item with
      | StackEntry.marker => none
      | StackEntry.seq t items =>
          some ((t, items ++ popped.filterMap asSeqExpr), rest)
  | StackEntry.seq t its :: rest =>
      popGroupLoop (StackEntry.seq t its) (item :: popped) rest

/-- `_pop_group` (lines 178-191): requires more than one stack entry, then
pops entries until (and including) the nearest marker, returning the last
concrete sequence popped before the marker (with its stacked branches
re-attached, see the file comment). -/
def popGroup : List StackEntry →
    Option ((SequenceType × List Expression) × List StackEntry)
  | [] => none
  | [_] => none
  | first :: next :: rest => popGroupLoop first [] (next :: rest)

/-- Scan of `last_parent_sequence` (lines 161-176): split the stack into the
maximal marker-free prefix from the top and the remainder; the Python loop's
`parent_sequence` is the last element of that prefix (the innermost sequence
before the nearest marker, or the stack bottom when no marker exists). -/
def scanParent : List StackEntry → (List StackEntry × List StackEntry)
  | [] => ([], [])
  | StackEntry.marker :: rest => ([], StackEntry.marker :: rest)
  | StackEntry.seq t items :: rest =>
      let (p, r) := scanParent rest
      (StackEntry.seq t items :: p, r)

/-- The `enterAlt` rewrite of the enclosing scope's items (lines 93-100):
a scope that is not yet an ALTERNATIVE has its non-empty items wrapped into a
single nested GROUP; an ALTERNATIVE keeps its items. -/
def convertItems (t : SequenceType) (items : List Expression) : List Expression :=
  if t = SequenceType.alternative then items
  else if items.isEmpty then items
  else [Expression.sequence SequenceType.group items]

/-- Replace the last element of the marker-free prefix (the Python
`parent_sequence`) by its ALTERNATIVE conversion; fails when the prefix is
empty (`assert parent_sequence`: empty stack or marker on top). -/
def convertParent : List StackEntry → Option (List StackEntry)
  | [] => none
  | [StackEntry.marker] => none
  | [StackEntry.seq t items] =>
      some [StackEntry.seq SequenceType.alternative (convertItems t items)]
  | e :: e' :: rest => (convertParent (e' :: rest)).map (e :: ·)

/-- `enterAlt` (lines 89-105) on the stack: convert the enclosing scope to an
ALTERNATIVE (wrapping accumulated items), then push a fresh empty GROUP
(without a marker) as the new current target; the fresh group becomes a
trailing item of the scope (re-attached at pop time in this embedding). -/
def enterAltStack (stack : List StackEntry) : Option (List StackEntry) :=
  let (p, r) := scanParent stack
  (convertParent p).map
    (fun p' => StackEntry.seq SequenceType.group [] :: (p' ++ r))

/-- `exitOptional`'s rewrite (lines 72-86): wrap items when more than one,
convert to ALTERNATIVE, then append the empty word `Word("")`
(`Word.empty()`, modelled from the spec: the "skip this" branch). -/
def finishOptional (t : SequenceType) (items : List Expression) : Expression :=
  let conv :=
    if t = SequenceType.alternative then items
    else if 1 < items.length then [Expression.sequence SequenceType.group items]
    else items
  Expression.sequence SequenceType.alternative (conv ++ [Expression.word ""])

/-- `exitSentence`'s view of the finished sentence: the bottom stack entry
together with the trailing alternative branches stacked directly above it
(in Python these already sit in `self._sentence.items` by aliasing; entries
beyond a marker belong to unclosed scopes that were never attached). -/
def finishBottom (stack : List StackEntry) : Option Expression :=
  match stack.reverse.takeWhile (fun e => (asSeqExpr e).isSome) with
  | [] => none
  | StackEntry.marker :: _ => none
  | StackEntry.seq t items :: branches =>
      some (Expression.sequence t (items ++ branches.filterMap asSeqExpr))

/-! ### The listener's event step -/

/-- One event dispatch of `HassILExpressionListener` (lines 43-141).  Failed
Python asserts / index errors are `none`. -/
def step (st : ListenerState) : Event → Option ListenerState
  | Event.enterSentence =>
      -- lines 43-46: fresh Sentence (a GROUP sequence) as the sole stack entry
      some ⟨st.sentences, true, [StackEntry.seq SequenceType.group []]⟩
  | Event.exitSentence =>
      -- lines 48-53: append the finished sentence, clear the state
      if st.sentenceOpen then
        (finishBottom st.stack).map
          (fun sent => ⟨st.sentences ++ [sent], false, []⟩)
      else none
  | Event.enterGroup =>
      -- lines 55-58: push a marker, then a fresh GROUP
      some ⟨st.sentences, st.sentenceOpen,
            StackEntry.seq SequenceType.group [] :: StackEntry.marker :: st.stack⟩
  | Event.exitGroup =>
      -- lines 60-63: pop the group, append it to the new target
      (popGroup st.stack).bind fun (g, rest) =>
        (appendToTarget rest (Expression.sequence g.1 g.2)).map
          (fun stk => ⟨st.sentences, st.sentenceOpen, stk⟩)
  | Event.enterOptional =>
      -- lines 65-70: same mechanics as a group
      some ⟨st.sentences, st.sentenceOpen,
            StackEntry.seq SequenceType.group [] :: StackEntry.marker :: st.stack⟩
  | Event.exitOptional =>
      -- lines 72-87: pop, convert to alternative with trailing Word("")
      (popGroup st.stack).bind fun (g, rest) =>
        (appendToTarget rest (finishOptional g.1 g.2)).map
          (fun stk => ⟨st.sentences, st.sentenceOpen, stk⟩)
  | Event.enterAlt =>
      -- lines 89-105
      (enterAltStack st.stack).map
        (fun stk => ⟨st.sentences, st.sentenceOpen, stk⟩)
  | Event.enterRuleRef name =>
      -- lines 107-110
      (appendToTarget st.stack (Expression.ruleReference name)).map
        (fun stk => ⟨st.sentences, st.sentenceOpen, stk⟩)
  | Event.enterListRef name =>
      -- lines 112-115
      (appendToTarget st.stack (Expression.listReference name)).map
        (fun stk => ⟨st.sentences, st.sentenceOpen, stk⟩)
  | Event.enterWord raw =>
      -- lines 117-141
      (appendToTarget st.stack (classifyWord raw)).map
        (fun stk => ⟨st.sentences, st.sentenceOpen, stk⟩)

/-- Dispatch a list of events in order (the `ParseTreeWalker.walk`). -/
def runEvents (st : ListenerState) : List Event → Option ListenerState
  | [] => some st
  | e :: evs =>
      match step st e with
      | none => none
      | some st' => runEvents st' evs

/-- A freshly constructed listener (`__init__`, lines 31-41). -/
def initListener : ListenerState := ⟨[], false, []⟩

/-! ### The external grammar front-end, modelled from the spec

The ANTLR lexer/parser (`grammar/HassILGrammarLexer.py` etc.) is out of
scope (spec §1) and not under `src/`; the spec (§6) only states that for a
valid document it produces a balanced stream of structural events in nesting
order.  The model below covers the constructs the verified templates use:
one sentence per non-blank line, `(`/`)` delimiting groups, `[`/`]`
delimiting optionals, an alternation-separator event at each `|`, and a word
event for each whitespace-delimited token (word-internal quoting/escaping is
handled later by the classifier). -/

/-- Modelled from the spec: the word event for a completed token, none for
an empty accumulator. -/
def flushWord (w : List Char) : List Event :=
  if w.isEmpty then [] else [Event.enterWord (String.mk w)]

/-- Modelled from the spec: scan one template line, `w` accumulating the
characters of the current word token. -/
def scanLine (w : List Char) : List Char → List Event
  | [] => flushWord w
  | c :: rest =>
      if c = '(' then flushWord w ++ [Event.enterGroup] ++ scanLine [] rest
      else if c = ')' then flushWord w ++ [Event.exitGroup] ++ scanLine [] rest
      else if c = '[' then flushWord w ++ [Event.enterOptional] ++ scanLine [] rest
      else if c = ']' then flushWord w ++ [Event.exitOptional] ++ scanLine [] rest
      else if c = '|' then flushWord w ++ [Event.enterAlt] ++ scanLine [] rest
      else if c.isWhitespace then flushWord w ++ scanLine [] rest
      else scanLine (w ++ [c]) rest

/-- Split a character list on newline characters (as Python
`text.split("\n")`: a trailing newline yields a trailing empty line). -/
def splitLinesChars : List Char → List (List Char)
  | [] => [[]]
  | c :: rest =>
      if c = '\n' then [] :: splitLinesChars rest
      else
        match splitLinesChars rest with
        | [] => [[c]]
        | l :: ls => (c :: l) :: ls

/-- Modelled from the spec: the event stream of a whole document — one
balanced sentence block per non-blank line, blank lines contributing no
events. -/
def frontEndEvents (text : String) : List Event :=
  ((splitLinesChars text.data).map
    (fun line =>
      if (stripChars line).isEmpty then []
      else Event.enterSentence :: scanLine [] line ++ [Event.exitSentence])).flatten

/-- Python `"\n".join(sentences)` (line 145). -/
def joinLines : List String → String
  | [] => ""
  | [l] => l
  | l :: l' :: rest => l ++ "\n" ++ joinLines (l' :: rest)

/-- `parse_sentences` (lines 143-151): join the lines with a newline, add a
trailing newline, and only when the text has a non-whitespace character
(`if text.strip():`) walk the front-end's event stream; otherwise the
listener is left unchanged. -/
def parse_sentences (listener : ListenerState) (lines : List String) :
    Option ListenerState :=
  let text := joinLines lines ++ "\n"
  if (stripChars text.data).isEmpty then some listener
  else runEvents listener (frontEndEvents text)

/-! ### Auxiliary machinery for the general theorems -/

/-- Stack entries for a list of alternative branches, topmost branch first. -/
def branchStack (bs : List (SequenceType × List Expression)) : List StackEntry :=
  bs.map (fun p => StackEntry.seq p.1 p.2)

/-- The same branches as finished expressions, topmost branch first. -/
def branchExprs (bs : List (SequenceType × List Expression)) : List Expression :=
  bs.map (fun p => Expression.sequence p.1 p.2)

/-! ### The completeness invariant for alternatives

"Every item of an ALTERNATIVE is a complete alternative": whenever an
alternative branch consists of more than one concatenated element, the
listener wraps those elements into a single nested GROUP item (`enterAlt`
lines 95-98, `exitOptional` lines 77-81) and every further branch
accumulates inside its own pushed GROUP — elements are never left as
sibling entries of the ALTERNATIVE's item list.  Structurally, on the
finished trees, this reads: apart from an optional's trailing empty-word
item, an ALTERNATIVE with more than one item holds only nested GROUP
sequences (one per branch); bare leaves can appear directly under an
ALTERNATIVE only as its single content item (a one-element branch is itself
a complete alternative, as in `[the]` → `ALTERNATIVE [Word "the", Word ""]`). -/

/-- Is the expression a GROUP sequence node? -/
def isGroupNode : Expression → Bool
  | Expression.sequence SequenceType.group _ => true
  | Expression.sequence SequenceType.alternative _ => false
  | Expression.word _ => false
  | Expression.number _ => false
  | Expression.numberRange _ _ _ => false
  | Expression.listReference _ => false
  | Expression.ruleReference _ => false

/-- Is the expression the empty word (an optional's "nothing" branch)? -/
def isEmptyWord : Expression → Bool
  | Expression.word t => t == ""
  | Expression.number _ => false
  | Expression.numberRange _ _ _ => false
  | Expression.listReference _ => false
  | Expression.ruleReference _ => false
  | Expression.sequence _ _ => false

/-- Drop a trailing `Word ""` (the explicit empty alternative appended by
`exitOptional`), if present. -/
def stripTrailingEmpty (its : List Expression) : List Expression :=
  match its.getLast? with
  | none => its
  | some e => if isEmptyWord e then its.dropLast else its

/-- The items of an ALTERNATIVE are complete alternatives: besides a
trailing `Word ""`, either there is at most one item (a single complete
branch, of any shape) or every item is a nested GROUP sequence — one
wrapped item per branch, never a branch's elements as siblings. -/
def altItemsOk (its : List Expression) : Bool :=
  decide ((stripTrailingEmpty its).length ≤ 1) ||
    (stripTrailingEmpty its).all isGroupNode

mutual

/-- Every ALTERNATIVE node of the tree satisfies `altItemsOk`, recursively. -/
def treeOk : Expression → Bool
  | Expression.word _ => true
  | Expression.number _ => true
  | Expression.numberRange _ _ _ => true
  | Expression.listReference _ => true
  | Expression.ruleReference _ => true
  | Expression.sequence t items =>
      (if t = SequenceType.alternative then altItemsOk items else true) &&
        treeOkList items

/-- `treeOk` for every element of a list. -/
def treeOkList : List Expression → Bool
  | [] => true
  | e :: es => treeOk e && treeOkList es

end

/-- Invariant of a single stack entry: its items are well-formed trees, and
an ALTERNATIVE entry (a converted scope awaiting its stacked branches) holds
only nested GROUP items — the wrapped pre-separator group and nothing
else. -/
def entryOk : StackEntry → Bool
  | StackEntry.marker => true
  | StackEntry.seq t items =>
      treeOkList items &&
        (if t = SequenceType.alternative then items.all isGroupNode else true)

/-- The stack's current target (and the entry exposed under any marker) is a
GROUP sequence or absent — leaves are never appended to an ALTERNATIVE. -/
def headOk : List StackEntry → Bool
  | [] => true
  | StackEntry.marker :: _ => false
  | StackEntry.seq SequenceType.group _ :: _ => true
  | StackEntry.seq SequenceType.alternative _ :: _ => false

/-- An ALTERNATIVE entry only ever sits at the bottom of its marker region
(directly above a marker, or at the stack bottom): every entry stacked above
it — an alternative branch — is a GROUP. -/
def seqPositionOk : SequenceType → List StackEntry → Bool
  | SequenceType.group, _ => true
  | SequenceType.alternative, [] => true
  | SequenceType.alternative, StackEntry.marker :: _ => true
  | SequenceType.alternative, StackEntry.seq _ _ :: _ => false

/-- The full stack invariant: every entry is well-formed and well-placed,
and whatever a marker exposes when popped is again a valid GROUP target. -/
def stackOk : List StackEntry → Bool
  | [] => true
  | StackEntry.marker :: rest => headOk rest && stackOk rest
  | StackEntry.seq t items :: rest =>
      entryOk (StackEntry.seq t items) && seqPositionOk t rest && stackOk rest

/-- The listener invariant: all produced sentences are well-formed trees and
the stack satisfies its structural invariant. -/
def stateOk (st : ListenerState) : Bool :=
  st.sentences.all treeOk && headOk st.stack && stackOk st.stack

theorem branchStack_nil : branchStack [] = [] := rfl

theorem branchStack_cons (b : SequenceType × List Expression)
    (bs : List (SequenceType × List Expression)) :
    branchStack (b :: bs) = StackEntry.seq b.1 b.2 :: branchStack bs := rfl

theorem branchExprs_nil : branchExprs [] = [] := rfl

theorem branchExprs_cons (b : SequenceType × List Expression)
    (bs : List (SequenceType × List Expression)) :
    branchExprs (b :: bs) = Expression.sequence b.1 b.2 :: branchExprs bs := rfl

theorem filterMap_branchStack (bs : List (SequenceType × List Expression)) :
    (branchStack bs).filterMap asSeqExpr = branchExprs bs := by
  induction bs with
  | nil => rfl
  | cons b bs ih =>
      rw [branchStack_cons, branchExprs_cons, List.filterMap_cons]
      simp [asSeqExpr, ih]

theorem runEvents_cons (st : ListenerState) (e : Event) (evs : List Event) :
    runEvents st (e :: evs) = (step st e).bind (fun s => runEvents s evs) := by
  cases h : step st e <;> simp [runEvents, h]

theorem runEvents_append (l₁ l₂ : List Event) :
    ∀ st : ListenerState,
      runEvents st (l₁ ++ l₂) = (runEvents st l₁).bind (fun s => runEvents s l₂) := by
  induction l₁ with
  | nil => intro st; simp [runEvents]
  | cons e l₁ ih =>
      intro st
      rw [List.cons_append, runEvents_cons, runEvents_cons]
      cases step st e <;> simp [ih]

theorem scanParent_branch (bs : List (SequenceType × List Expression))
    (t : SequenceType) (items : List Expression) (rest : List StackEntry) :
    scanParent (branchStack bs ++ StackEntry.seq t items :: StackEntry.marker :: rest)
      = (branchStack bs ++ [StackEntry.seq t items], StackEntry.marker :: rest) := by
  induction bs with
  | nil => simp [branchStack_nil, scanParent]
  | cons b bs ih =>
      rw [branchStack_cons, List.cons_append, scanParent, ih]
      rfl

theorem scanParent_noMarker (bs : List (SequenceType × List Expression))
    (t : SequenceType) (items : List Expression) :
    scanParent (branchStack bs ++ [StackEntry.seq t items])
      = (branchStack bs ++ [StackEntry.seq t items], []) := by
  induction bs with
  | nil => simp [branchStack_nil, scanParent]
  | cons b bs ih =>
      rw [branchStack_cons, List.cons_append, scanParent, ih]

theorem convertParent_branch (bs : List (SequenceType × List Expression))
    (t : SequenceType) (items : List Expression) :
    convertParent (branchStack bs ++ [StackEntry.seq t items])
      = some (branchStack bs ++
          [StackEntry.seq SequenceType.alternative (convertItems t items)]) := by
  induction bs with
  | nil => simp [branchStack_nil, convertParent]
  | cons b bs ih =>
      rw [branchStack_cons, List.cons_append]
      cases h : branchStack bs ++ [StackEntry.seq t items] with
      | nil => exact absurd h (by simp)
      | cons e es =>
          rw [convertParent, ← h, ih]
          simp

theorem popGroupLoop_branch (bs : List (SequenceType × List Expression)) :
    ∀ (item : StackEntry) (popped : List StackEntry) (t : SequenceType)
      (items : List Expression) (rest : List StackEntry),
      popGroupLoop item popped
          (branchStack bs ++ StackEntry.seq t items :: StackEntry.marker :: rest)
        = some ((t, items ++
            ((branchStack bs).reverse ++ item :: popped).filterMap asSeqExpr), rest) := by
  induction bs with
  | nil => intro item popped t items rest; simp [branchStack_nil, popGroupLoop]
  | cons b bs ih =>
      intro item popped t items rest
      rw [branchStack_cons, List.cons_append, popGroupLoop, ih]
      simp

theorem popGroup_cons_cons (a c : StackEntry) (rest : List StackEntry) :
    popGroup (a :: c :: rest) = popGroupLoop a [] (c :: rest) := rfl

theorem popGroup_branch (t₀ : SequenceType) (i₀ : List Expression)
    (bs : List (SequenceType × List Expression)) (t : SequenceType)
    (items : List Expression) (rest : List StackEntry) :
    popGroup (StackEntry.seq t₀ i₀ ::
        branchStack bs ++ StackEntry.seq t items :: StackEntry.marker :: rest)
      = some ((t, items ++ (branchExprs bs).reverse ++
          [Expression.sequence t₀ i₀]), rest) := by
  cases bs with
  | nil =>
      simp only [branchStack_nil, branchExprs_nil, List.singleton_append]
      rw [popGroup_cons_cons]
      simp [popGroupLoop, asSeqExpr]
  | cons b bs' =>
      simp only [branchStack_cons, List.cons_append]
      rw [popGroup_cons_cons, ← List.cons_append, ← branchStack_cons, popGroupLoop_branch]
      simp [List.filterMap_append, filterMap_branchStack, asSeqExpr,
            List.filterMap_reverse]

theorem runEvents_words (ws : List String) :
    ∀ (s : List Expression) (o : Bool) (t : SequenceType)
      (its : List Expression) (rest : List StackEntry),
      runEvents ⟨s, o, StackEntry.seq t its :: rest⟩ (ws.map Event.enterWord)
        = some ⟨s, o, StackEntry.seq t (its ++ ws.map classifyWord) :: rest⟩ := by
  induction ws with
  | nil => intro s o t its rest; simp [runEvents]
  | cons w ws ih =>
      intro s o t its rest
      rw [List.map_cons, runEvents_cons,
          show step ⟨s, o, StackEntry.seq t its :: rest⟩ (Event.enterWord w)
            = some ⟨s, o, StackEntry.seq t (its ++ [classifyWord w]) :: rest⟩ from rfl,
          Option.some_bind, ih]
      simp

theorem dropWhile_ws_nil (cs : List Char) (h : cs.all Char.isWhitespace = true) :
    cs.dropWhile Char.isWhitespace = [] := by
  rw [List.dropWhile_eq_nil_iff]
  intro x hx
  exact (List.all_eq_true.mp h) x hx

theorem stripChars_nil_of_all (cs : List Char)
    (h : cs.all Char.isWhitespace = true) : stripChars cs = [] := by
  simp [stripChars, dropWhile_ws_nil cs h]

theorem joinLines_all_ws :
    ∀ lines : List String, (∀ l ∈ lines, l.data.all Char.isWhitespace = true) →
      (joinLines lines).data.all Char.isWhitespace = true := by
  intro lines
  induction lines with
  | nil => intro _; rfl
  | cons l rest ih =>
      intro h
      cases rest with
      | nil => exact h l (by simp)
      | cons l' rest' =>
          rw [joinLines, String.data_append, String.data_append, List.all_append,
              List.all_append]
          simp only [Bool.and_eq_true]
          exact ⟨⟨h l (by simp), rfl⟩, ih (fun x hx => h x (List.mem_cons_of_mem l hx))⟩

theorem step_sentences (s : List Expression) (o : Bool) (k : List StackEntry)
    (e : Event) :
    step ⟨s, o, k⟩ e
      = (step ⟨[], o, k⟩ e).map
          (fun r => ⟨s ++ r.sentences, r.sentenceOpen, r.stack⟩) := by
  cases e with
  | enterSentence => simp [step]
  | exitSentence =>
      cases o with
      | false => simp [step]
      | true => cases hf : finishBottom k <;> simp [step, hf]
  | enterGroup => simp [step]
  | exitGroup =>
      cases hp : popGroup k with
      | none => simp [step, hp]
      | some g =>
          obtain ⟨⟨t, items⟩, rest⟩ := g
          cases ha : appendToTarget rest (Expression.sequence t items) <;>
            simp [step, hp, ha]
  | enterOptional => simp [step]
  | exitOptional =>
      cases hp : popGroup k with
      | none => simp [step, hp]
      | some g =>
          obtain ⟨⟨t, items⟩, rest⟩ := g
          cases ha : appendToTarget rest (finishOptional t items) <;>
            simp [step, hp, ha]
  | enterAlt => cases hs : enterAltStack k <;> simp [step, hs]
  | enterRuleRef name =>
      cases ha : appendToTarget k (Expression.ruleReference name) <;> simp [step, ha]
  | enterListRef name =>
      cases ha : appendToTarget k (Expression.listReference name) <;> simp [step, ha]
  | enterWord raw =>
      cases ha : appendToTarget k (classifyWord raw) <;> simp [step, ha]

theorem runEvents_sentences (evs : List Event) :
    ∀ (s : List Expression) (o : Bool) (k : List StackEntry),
      runEvents ⟨s, o, k⟩ evs
        = (runEvents ⟨[], o, k⟩ evs).map
            (fun r => ⟨s ++ r.sentences, r.sentenceOpen, r.stack⟩) := by
  induction evs with
  | nil => intro s o k; simp [runEvents]
  | cons e evs ih =>
      intro s o k
      rw [runEvents_cons, runEvents_cons, step_sentences]
      cases h : step ⟨[], o, k⟩ e with
      | none => simp
      | some r =>
          obtain ⟨rs, ro, rk⟩ := r
          simp only [Option.map_some', Option.some_bind]
          rw [ih (s ++ rs) ro rk, ih rs ro rk]
          cases runEvents ⟨[], ro, rk⟩ evs <;> simp [List.append_assoc]

theorem getLast?_mem_of {α : Type} {l : List α} {a : α}
    (h : l.getLast? = some a) : a ∈ l := by
  obtain ⟨hne, rfl⟩ := List.mem_getLast?_eq_getLast
    (show a ∈ l.getLast? by simp [Option.mem_def, h])
  exact List.getLast_mem hne

theorem treeOkList_append (l₁ l₂ : List Expression) :
    treeOkList (l₁ ++ l₂) = (treeOkList l₁ && treeOkList l₂) := by
  induction l₁ with
  | nil => simp [treeOkList]
  | cons e es ih => simp [treeOkList, ih, Bool.and_assoc]

theorem treeOk_classifyWord (raw : String) : treeOk (classifyWord raw) = true := by
  cases h1 : numberPatternMatch (remove_quotes (remove_escapes (strip raw))) with
  | some n => simp [classifyWord, h1, treeOk]
  | none =>
      cases h2 : numberRangePatternMatch (remove_quotes (remove_escapes (strip raw))) with
      | some p =>
          obtain ⟨lo, hi, st⟩ := p
          simp [classifyWord, h1, h2, treeOk]
      | none => simp [classifyWord, h1, h2, treeOk]

theorem isEmptyWord_of_group {e : Expression} (h : isGroupNode e = true) :
    isEmptyWord e = false := by
  cases e with
  | sequence t items => cases t <;> simp_all [isGroupNode, isEmptyWord]
  | word t => simp [isGroupNode] at h
  | number v => simp [isGroupNode] at h
  | numberRange a b c => simp [isGroupNode] at h
  | listReference n => simp [isGroupNode] at h
  | ruleReference n => simp [isGroupNode] at h

theorem stripTrailingEmpty_allGroup (its : List Expression)
    (h : its.all isGroupNode = true) : stripTrailingEmpty its = its := by
  unfold stripTrailingEmpty
  cases hl : its.getLast? with
  | none => rfl
  | some e =>
      have he : isGroupNode e = true :=
        List.all_eq_true.mp h e (getLast?_mem_of hl)
      simp [isEmptyWord_of_group he]

theorem altItemsOk_allGroup (its : List Expression)
    (h : its.all isGroupNode = true) : altItemsOk its = true := by
  rw [altItemsOk, stripTrailingEmpty_allGroup its h, h, Bool.or_true]

theorem treeOkList_branchExprs (bs : List (SequenceType × List Expression))
    (h : ∀ b ∈ bs, b.1 = SequenceType.group ∧ treeOkList b.2 = true) :
    treeOkList (branchExprs bs) = true := by
  induction bs with
  | nil => rfl
  | cons b bs ih =>
      obtain ⟨h1, h2⟩ := h b (by simp)
      rw [branchExprs_cons, treeOkList, h1]
      simp [treeOk, h2, ih (fun x hx => h x (List.mem_cons_of_mem b hx))]

theorem allGroup_branchExprs (bs : List (SequenceType × List Expression))
    (h : ∀ b ∈ bs, b.1 = SequenceType.group) :
    (branchExprs bs).all isGroupNode = true := by
  induction bs with
  | nil => rfl
  | cons b bs ih =>
      rw [branchExprs_cons, List.all_cons, h b (by simp)]
      simp [isGroupNode, ih (fun x hx => h x (List.mem_cons_of_mem b hx))]

theorem stripTrailingEmpty_concat_empty (l : List Expression) :
    stripTrailingEmpty (l ++ [Expression.word ""]) = l := by
  unfold stripTrailingEmpty
  rw [List.getLast?_concat]
  simp [isEmptyWord, List.dropLast_concat]

theorem treeOk_finishOptional (t : SequenceType) (items : List Expression)
    (h1 : treeOkList items = true)
    (h2 : t = SequenceType.alternative → items.all isGroupNode = true) :
    treeOk (finishOptional t items) = true := by
  cases t with
  | alternative =>
      have hg := h2 rfl
      have halt : altItemsOk (items ++ [Expression.word ""]) = true := by
        rw [altItemsOk, stripTrailingEmpty_concat_empty, hg, Bool.or_true]
      show treeOk (Expression.sequence SequenceType.alternative
          (items ++ [Expression.word ""])) = true
      simp [treeOk, halt, treeOkList_append, treeOkList, h1]
  | group =>
      by_cases hl : 1 < items.length
      · have hfo : finishOptional SequenceType.group items
            = Expression.sequence SequenceType.alternative
                ([Expression.sequence SequenceType.group items] ++ [Expression.word ""]) := by
          simp [finishOptional, hl]
        have halt : altItemsOk ([Expression.sequence SequenceType.group items]
            ++ [Expression.word ""]) = true := by
          rw [altItemsOk, stripTrailingEmpty_concat_empty]
          simp
        rw [hfo]
        simp [treeOk, treeOkList_append, treeOkList, h1,
              show altItemsOk [Expression.sequence SequenceType.group items,
                Expression.word ""] = true from halt]
      · have hfo : finishOptional SequenceType.group items
            = Expression.sequence SequenceType.alternative
                (items ++ [Expression.word ""]) := by
          simp [finishOptional, hl]
        have halt : altItemsOk (items ++ [Expression.word ""]) = true := by
          rw [altItemsOk, stripTrailingEmpty_concat_empty]
          simp [Nat.le_of_not_lt hl]
        rw [hfo]
        simp [treeOk, halt, treeOkList_append, treeOkList, h1]

theorem takeWhile_append_stop {α : Type} (p : α → Bool) (l₁ l₂ : List α) (x : α)
    (h1 : ∀ a ∈ l₁, p a = true) (h2 : p x = false) :
    (l₁ ++ x :: l₂).takeWhile p = l₁ := by
  induction l₁ with
  | nil => simp [List.takeWhile, h2]
  | cons a l ih =>
      rw [List.cons_append, List.takeWhile_cons, h1 a (by simp)]
      simp [ih (fun b hb => h1 b (List.mem_cons_of_mem a hb))]

theorem treeOk_sequence_of (t : SequenceType) (items : List Expression)
    (h1 : treeOkList items = true)
    (h2 : t = SequenceType.alternative → items.all isGroupNode = true) :
    treeOk (Expression.sequence t items) = true := by
  cases t with
  | group => simp [treeOk, h1]
  | alternative => simp [treeOk, h1, altItemsOk_allGroup items (h2 rfl)]

theorem popped_facts_filterMap (popped : List StackEntry)
    (hp : ∀ e ∈ popped, ∃ bi, e = StackEntry.seq SequenceType.group bi ∧
      treeOkList bi = true) :
    treeOkList (popped.filterMap asSeqExpr) = true ∧
    (popped.filterMap asSeqExpr).all isGroupNode = true := by
  induction popped with
  | nil => exact ⟨rfl, rfl⟩
  | cons e es ih =>
      obtain ⟨bi, rfl, hbi⟩ := hp e (by simp)
      obtain ⟨ih1, ih2⟩ := ih (fun x hx => hp x (List.mem_cons_of_mem _ hx))
      constructor
      · simp [List.filterMap_cons, asSeqExpr, treeOkList, treeOk, hbi, ih1]
      · simp [List.filterMap_cons, asSeqExpr, isGroupNode, ih2]

theorem popGroupLoop_ok (stk : List StackEntry) :
    ∀ (ti : SequenceType) (ii : List Expression) (popped : List StackEntry),
      stackOk (StackEntry.seq ti ii :: stk) = true →
      (∀ e ∈ popped, ∃ bi, e = StackEntry.seq SequenceType.group bi ∧
        treeOkList bi = true) →
      ∀ (t : SequenceType) (items : List Expression) (rest : List StackEntry),
        popGroupLoop (StackEntry.seq ti ii) popped stk = some ((t, items), rest) →
        treeOkList items = true ∧
        (t = SequenceType.alternative → items.all isGroupNode = true) ∧
        headOk rest = true ∧ stackOk rest = true := by
  induction stk with
  | nil =>
      intro ti ii popped h hp t items rest hloop
      simp [popGroupLoop] at hloop
  | cons e stk2 ih =>
      intro ti ii popped h hp t items rest hloop
      cases e with
      | marker =>
          simp only [popGroupLoop, Option.some.injEq, Prod.mk.injEq] at hloop
          obtain ⟨⟨ht, hitems⟩, h2⟩ := hloop
          subst ht; subst hitems; subst h2
          simp only [stackOk, Bool.and_eq_true] at h
          obtain ⟨⟨hent, _⟩, hhead2, hstk2⟩ := h
          simp only [entryOk, Bool.and_eq_true] at hent
          obtain ⟨hii, hiig⟩ := hent
          obtain ⟨hfm1, hfm2⟩ := popped_facts_filterMap popped hp
          refine ⟨?_, ?_, hhead2, hstk2⟩
          · rw [treeOkList_append, hii, hfm1]; rfl
          · intro hti
            rw [List.all_append, hfm2, Bool.and_true]
            rw [hti] at hiig
            simpa using hiig
      | seq tb ib =>
          simp only [popGroupLoop] at hloop
          cases ti with
          | alternative =>
              simp [stackOk, seqPositionOk] at h
          | group =>
              have hrest : stackOk (StackEntry.seq tb ib :: stk2) = true := by
                simp only [stackOk, Bool.and_eq_true] at h ⊢
                exact h.2
              have hent : treeOkList ii = true := by
                simp only [stackOk, entryOk, Bool.and_eq_true] at h
                exact h.1.1.1
              refine ih tb ib (StackEntry.seq SequenceType.group ii :: popped)
                hrest ?_ t items rest hloop
              intro x hx
              rcases List.mem_cons.mp hx with rfl | hx2
              · exact ⟨ii, rfl, hent⟩
              · exact hp x hx2

theorem popGroup_ok (stack : List StackEntry)
    (hs : stackOk stack = true) (hh : headOk stack = true)
    (t : SequenceType) (items : List Expression) (rest : List StackEntry)
    (hp : popGroup stack = some ((t, items), rest)) :
    treeOkList items = true ∧
    (t = SequenceType.alternative → items.all isGroupNode = true) ∧
    headOk rest = true ∧ stackOk rest = true := by
  cases stack with
  | nil => simp [popGroup] at hp
  | cons a stack2 =>
      cases stack2 with
      | nil => simp [popGroup] at hp
      | cons b stack3 =>
          cases a with
          | marker => simp [headOk] at hh
          | seq ta ia =>
              cases ta with
              | alternative => simp [headOk] at hh
              | group =>
                  rw [popGroup_cons_cons] at hp
                  exact popGroupLoop_ok (b :: stack3) SequenceType.group ia []
                    hs (by simp) t items rest hp

theorem scanParent_shape (stk : List StackEntry) :
    ∀ (t0 : SequenceType) (i0 : List Expression),
      stackOk (StackEntry.seq t0 i0 :: stk) = true →
      ∃ bs t items r,
        scanParent (StackEntry.seq t0 i0 :: stk)
          = (branchStack bs ++ [StackEntry.seq t items], r) ∧
        StackEntry.seq t0 i0 :: stk = branchStack bs ++ StackEntry.seq t items :: r ∧
        (∀ b ∈ bs, b.1 = SequenceType.group ∧ treeOkList b.2 = true) ∧
        entryOk (StackEntry.seq t items) = true ∧
        (r = [] ∨ ∃ r2, r = StackEntry.marker :: r2 ∧ headOk r2 = true ∧
          stackOk r2 = true) := by
  induction stk with
  | nil =>
      intro t0 i0 h
      simp only [stackOk, Bool.and_eq_true] at h
      refine ⟨[], t0, i0, [], by simp [scanParent, branchStack_nil],
        by simp [branchStack_nil], by simp, h.1.1, Or.inl rfl⟩
  | cons e stk2 ih =>
      intro t0 i0 h
      cases e with
      | marker =>
          simp only [stackOk, Bool.and_eq_true] at h
          obtain ⟨⟨hent, _⟩, hhead2, hstk2⟩ := h
          refine ⟨[], t0, i0, StackEntry.marker :: stk2,
            by simp [scanParent, branchStack_nil], by simp [branchStack_nil],
            by simp, hent, Or.inr ⟨stk2, rfl, hhead2, hstk2⟩⟩
      | seq t1 i1 =>
          have ht0 : t0 = SequenceType.group := by
            cases t0 with
            | group => rfl
            | alternative => simp [stackOk, seqPositionOk] at h
          subst ht0
          have h' : stackOk (StackEntry.seq t1 i1 :: stk2) = true := by
            simp only [stackOk, Bool.and_eq_true] at h ⊢
            exact h.2
          have hi0 : treeOkList i0 = true := by
            simp only [stackOk, entryOk, Bool.and_eq_true] at h
            exact h.1.1.1
          obtain ⟨bs, t, items, r, hscan, hdecomp, hbs, hentry, hr⟩ := ih t1 i1 h'
          refine ⟨(SequenceType.group, i0) :: bs, t, items, r, ?_, ?_, ?_, hentry, hr⟩
          · rw [scanParent, hscan, branchStack_cons]
            simp
          · rw [branchStack_cons, List.cons_append, ← hdecomp]
          · intro b hb
            rcases List.mem_cons.mp hb with rfl | hb2
            · exact ⟨rfl, hi0⟩
            · exact hbs b hb2

theorem stackOk_branches (bs : List (SequenceType × List Expression))
    (l : List StackEntry)
    (hbs : ∀ b ∈ bs, b.1 = SequenceType.group ∧ treeOkList b.2 = true)
    (hl : stackOk l = true) :
    stackOk (branchStack bs ++ l) = true := by
  induction bs with
  | nil => simpa [branchStack_nil]
  | cons b bs ih =>
      obtain ⟨h1, h2⟩ := hbs b (by simp)
      obtain ⟨tb, ib⟩ := b
      have h1' : tb = SequenceType.group := h1
      have h2' : treeOkList ib = true := h2
      subst h1'
      rw [branchStack_cons, List.cons_append]
      simp only [stackOk, Bool.and_eq_true]
      refine ⟨⟨?_, ?_⟩, ?_⟩
      · simp [entryOk, h2']
      · rfl
      · exact ih (fun x hx => hbs x (List.mem_cons_of_mem _ hx))

theorem stackOk_split (stack : List StackEntry) (hs : stackOk stack = true) :
    stack = [] ∨
    (∃ pre, stack = pre ++ [StackEntry.marker]) ∨
    (∃ bs t items,
      (stack = branchStack bs ++ [StackEntry.seq t items] ∨
       ∃ pre, stack = pre ++ StackEntry.marker ::
         (branchStack bs ++ [StackEntry.seq t items])) ∧
      (∀ b ∈ bs, b.1 = SequenceType.group ∧ treeOkList b.2 = true) ∧
      entryOk (StackEntry.seq t items) = true) := by
  induction stack with
  | nil => exact Or.inl rfl
  | cons e rest ih =>
      have hrest : stackOk rest = true := by
        cases e with
        | marker => simp only [stackOk, Bool.and_eq_true] at hs; exact hs.2
        | seq t items => simp only [stackOk, Bool.and_eq_true] at hs; exact hs.2
      rcases ih hrest with h0 | ⟨pre, h1⟩ | ⟨bs, t, items, hform, hbs, hentry⟩
      · subst h0
        cases e with
        | marker => exact Or.inr (Or.inl ⟨[], rfl⟩)
        | seq te ie =>
            refine Or.inr (Or.inr ⟨[], te, ie, Or.inl (by simp [branchStack_nil]),
              by simp, ?_⟩)
            simp only [stackOk, Bool.and_eq_true] at hs
            exact hs.1.1
      · subst h1
        exact Or.inr (Or.inl ⟨e :: pre, rfl⟩)
      · rcases hform with h2 | ⟨pre, h2⟩
        · subst h2
          cases e with
          | marker =>
              exact Or.inr (Or.inr ⟨bs, t, items,
                Or.inr ⟨[], rfl⟩, hbs, hentry⟩)
          | seq te ie =>
              have hte : te = SequenceType.group := by
                cases te with
                | group => rfl
                | alternative =>
                    cases bs with
                    | nil =>
                        rw [branchStack_nil, List.nil_append] at hs
                        simp [stackOk, seqPositionOk] at hs
                    | cons b bs' =>
                        rw [branchStack_cons, List.cons_append] at hs
                        simp [stackOk, seqPositionOk] at hs
              subst hte
              have hie : treeOkList ie = true := by
                simp only [stackOk, entryOk, Bool.and_eq_true] at hs
                exact hs.1.1.1
              refine Or.inr (Or.inr ⟨(SequenceType.group, ie) :: bs, t, items,
                Or.inl (by rw [branchStack_cons, List.cons_append]), ?_, hentry⟩)
              intro b hb
              rcases List.mem_cons.mp hb with rfl | hb2
              · exact ⟨rfl, hie⟩
              · exact hbs b hb2
        · subst h2
          exact Or.inr (Or.inr ⟨bs, t, items, Or.inr ⟨e :: pre, rfl⟩, hbs, hentry⟩)

theorem takeWhile_all {α : Type} (p : α → Bool) (l : List α)
    (h : ∀ a ∈ l, p a = true) : l.takeWhile p = l := by
  induction l with
  | nil => rfl
  | cons a l ih =>
      rw [List.takeWhile_cons, h a (by simp)]
      simp [ih (fun b hb => h b (List.mem_cons_of_mem a hb))]

theorem reverse_branchStack_eq (bs : List (SequenceType × List Expression)) :
    (branchStack bs).reverse = branchStack bs.reverse := by
  simp [branchStack, List.map_reverse]

theorem finishBottom_region (bs : List (SequenceType × List Expression))
    (t : SequenceType) (items : List Expression) :
    finishBottom (branchStack bs ++ [StackEntry.seq t items])
      = some (Expression.sequence t (items ++ branchExprs bs.reverse)) := by
  unfold finishBottom
  rw [List.reverse_append]
  rw [takeWhile_all _ _ (by
    intro a ha
    simp only [List.reverse_cons, List.reverse_nil, List.nil_append,
      List.mem_append, List.mem_cons, List.not_mem_nil, or_false,
      List.mem_reverse] at ha
    rcases ha with rfl | hmem
    · rfl
    · rcases List.mem_map.mp (show a ∈ branchStack bs from hmem) with ⟨b, _, rfl⟩
      rfl)]
  simp only [List.reverse_cons, List.reverse_nil, List.nil_append, List.cons_append]
  rw [reverse_branchStack_eq, filterMap_branchStack]

theorem finishBottom_marker_region (pre : List StackEntry)
    (bs : List (SequenceType × List Expression))
    (t : SequenceType) (items : List Expression) :
    finishBottom (pre ++ StackEntry.marker ::
        (branchStack bs ++ [StackEntry.seq t items]))
      = some (Expression.sequence t (items ++ branchExprs bs.reverse)) := by
  unfold finishBottom
  rw [List.reverse_append, List.reverse_cons, List.reverse_append,
      List.append_assoc, List.singleton_append]
  rw [takeWhile_append_stop _
        ([StackEntry.seq t items].reverse ++ (branchStack bs).reverse)
        pre.reverse StackEntry.marker
        (by
          intro a ha
          simp only [List.reverse_cons, List.reverse_nil, List.nil_append,
            List.mem_append, List.mem_cons, List.not_mem_nil, or_false,
            List.mem_reverse] at ha
          rcases ha with rfl | hmem
          · rfl
          · rcases List.mem_map.mp (show a ∈ branchStack bs from hmem) with ⟨b, _, rfl⟩
            rfl)
        rfl]
  simp only [List.reverse_cons, List.reverse_nil, List.nil_append, List.cons_append]
  rw [reverse_branchStack_eq, filterMap_branchStack]

theorem finishBottom_trailing_marker (pre : List StackEntry) :
    finishBottom (pre ++ [StackEntry.marker]) = none := by
  unfold finishBottom
  rw [List.reverse_append]
  simp [List.takeWhile, asSeqExpr]

theorem finishBottom_ok (stack : List StackEntry) (hs : stackOk stack = true)
    (s : Expression) (hf : finishBottom stack = some s) : treeOk s = true := by
  rcases stackOk_split stack hs with h0 | ⟨pre, h1⟩ | ⟨bs, t, items, hform, hbs, hentry⟩
  · subst h0
    simp [finishBottom, List.takeWhile] at hf
  · subst h1
    rw [finishBottom_trailing_marker] at hf
    exact absurd hf (by simp)
  · have hbs' : ∀ b ∈ bs.reverse, b.1 = SequenceType.group ∧ treeOkList b.2 = true :=
      fun b hb => hbs b (List.mem_reverse.mp hb)
    have hitems : treeOkList items = true := by
      simp only [entryOk, Bool.and_eq_true] at hentry
      exact hentry.1
    have halt : t = SequenceType.alternative → items.all isGroupNode = true := by
      intro ht
      simp only [entryOk, ht, Bool.and_eq_true] at hentry
      simpa using hentry.2
    have hres : treeOk (Expression.sequence t (items ++ branchExprs bs.reverse)) = true := by
      refine treeOk_sequence_of t _ ?_ ?_
      · rw [treeOkList_append, hitems, treeOkList_branchExprs bs.reverse hbs']
        rfl
      · intro ht
        rw [List.all_append, halt ht,
            allGroup_branchExprs bs.reverse (fun b hb => (hbs' b hb).1)]
        rfl
    rcases hform with h2 | ⟨pre, h2⟩
    · rw [h2, finishBottom_region] at hf
      injection hf with hf2
      rw [← hf2]
      exact hres
    · rw [h2, finishBottom_marker_region] at hf
      injection hf with hf2
      rw [← hf2]
      exact hres

theorem convertItems_ok (t : SequenceType) (items : List Expression)
    (hentry : entryOk (StackEntry.seq t items) = true) :
    treeOkList (convertItems t items) = true ∧
    (convertItems t items).all isGroupNode = true := by
  simp only [entryOk, Bool.and_eq_true] at hentry
  obtain ⟨h1, h2⟩ := hentry
  cases t with
  | alternative =>
      rw [convertItems, if_pos rfl]
      exact ⟨h1, by simpa using h2⟩
  | group =>
      rw [convertItems, if_neg (by simp)]
      cases hemp : items.isEmpty with
      | true =>
          rw [if_pos rfl]
          rw [List.isEmpty_iff] at hemp
          subst hemp
          exact ⟨rfl, rfl⟩
      | false =>
          rw [if_neg (by simp)]
          refine ⟨?_, by simp [isGroupNode]⟩
          simp [treeOkList, treeOk, h1]

theorem appendToTarget_ok (stack : List StackEntry) (x : Expression)
    (hh : headOk stack = true) (hs : stackOk stack = true)
    (hx : treeOk x = true)
    (stk' : List StackEntry) (ha : appendToTarget stack x = some stk') :
    headOk stk' = true ∧ stackOk stk' = true := by
  cases stack with
  | nil => simp [appendToTarget] at ha
  | cons a rest =>
      cases a with
      | marker => simp [headOk] at hh
      | seq t i =>
          cases t with
          | alternative => simp [headOk] at hh
          | group =>
              simp only [appendToTarget, Option.some.injEq] at ha
              subst ha
              refine ⟨rfl, ?_⟩
              simp only [stackOk, Bool.and_eq_true] at hs ⊢
              refine ⟨⟨?_, rfl⟩, hs.2⟩
              have hi : treeOkList i = true := by
                have := hs.1.1
                simp only [entryOk, Bool.and_eq_true] at this
                exact this.1
              simp [entryOk, treeOkList_append, hi, treeOkList, hx]

/-- Every event dispatch preserves the listener invariant: produced
sentences stay well-formed trees, the current target stays a GROUP, and
ALTERNATIVE entries stay at region bottoms with only wrapped GROUP items. -/
theorem step_stateOk (st st' : ListenerState) (e : Event)
    (hok : stateOk st = true) (hstep : step st e = some st') :
    stateOk st' = true := by
  obtain ⟨sents, op, stack⟩ := st
  have hsent : sents.all treeOk = true := by
    simp only [stateOk, Bool.and_eq_true] at hok
    exact hok.1.1
  have hhead : headOk stack = true := by
    simp only [stateOk, Bool.and_eq_true] at hok
    exact hok.1.2
  have hstack : stackOk stack = true := by
    simp only [stateOk, Bool.and_eq_true] at hok
    exact hok.2
  cases e with
  | enterSentence =>
      obtain rfl := Option.some.inj hstep
      simp [stateOk, hsent, headOk, stackOk, entryOk, seqPositionOk, treeOkList]
  | exitSentence =>
      simp only [step] at hstep
      cases op with
      | false => simp at hstep
      | true =>
          simp only [if_pos] at hstep
          cases hf : finishBottom stack with
          | none => rw [hf] at hstep; simp at hstep
          | some s =>
              rw [hf] at hstep
              simp only [Option.map_some', Option.some.injEq] at hstep
              subst hstep
              simp [stateOk, List.all_append, hsent, treeOkList,
                    finishBottom_ok stack hstack s hf, headOk, stackOk]
  | enterGroup =>
      obtain rfl := Option.some.inj hstep
      simp only [stateOk, Bool.and_eq_true]
      exact ⟨⟨hsent, rfl⟩, by
        simp only [stackOk, Bool.and_eq_true]
        exact ⟨⟨rfl, rfl⟩, hhead, hstack⟩⟩
  | enterOptional =>
      obtain rfl := Option.some.inj hstep
      simp only [stateOk, Bool.and_eq_true]
      exact ⟨⟨hsent, rfl⟩, by
        simp only [stackOk, Bool.and_eq_true]
        exact ⟨⟨rfl, rfl⟩, hhead, hstack⟩⟩
  | exitGroup =>
      simp only [step] at hstep
      cases hp : popGroup stack with
      | none => rw [hp] at hstep; simp at hstep
      | some g =>
          rw [hp] at hstep
          obtain ⟨⟨t, items⟩, rest⟩ := g
          simp only [Option.some_bind] at hstep
          obtain ⟨h1, h2, hh3, hs3⟩ := popGroup_ok stack hstack hhead t items rest hp
          cases ha : appendToTarget rest (Expression.sequence t items) with
          | none => rw [ha] at hstep; simp at hstep
          | some stk' =>
              rw [ha] at hstep
              simp only [Option.map_some', Option.some.injEq] at hstep
              subst hstep
              obtain ⟨hh4, hs4⟩ := appendToTarget_ok rest _ hh3 hs3
                (treeOk_sequence_of t items h1 h2) stk' ha
              simp [stateOk, hsent, hh4, hs4]
  | exitOptional =>
      simp only [step] at hstep
      cases hp : popGroup stack with
      | none => rw [hp] at hstep; simp at hstep
      | some g =>
          rw [hp] at hstep
          obtain ⟨⟨t, items⟩, rest⟩ := g
          simp only [Option.some_bind] at hstep
          obtain ⟨h1, h2, hh3, hs3⟩ := popGroup_ok stack hstack hhead t items rest hp
          cases ha : appendToTarget rest (finishOptional t items) with
          | none => rw [ha] at hstep; simp at hstep
          | some stk' =>
              rw [ha] at hstep
              simp only [Option.map_some', Option.some.injEq] at hstep
              subst hstep
              obtain ⟨hh4, hs4⟩ := appendToTarget_ok rest _ hh3 hs3
                (treeOk_finishOptional t items h1 h2) stk' ha
              simp [stateOk, hsent, hh4, hs4]
  | enterAlt =>
      simp only [step] at hstep
      cases stack with
      | nil => simp [enterAltStack, scanParent, convertParent] at hstep
      | cons a stack2 =>
          cases a with
          | marker => simp [headOk] at hhead
          | seq ta ia =>
              cases ta with
              | alternative => simp [headOk] at hhead
              | group =>
                  obtain ⟨bs, t, items, r, hscan, hdecomp, hbs, hentry, hr⟩ :=
                    scanParent_shape stack2 SequenceType.group ia hstack
                  rw [show enterAltStack
                        (StackEntry.seq SequenceType.group ia :: stack2)
                      = some (StackEntry.seq SequenceType.group [] ::
                          ((branchStack bs ++
                            [StackEntry.seq SequenceType.alternative
                              (convertItems t items)]) ++ r)) from by
                    simp only [enterAltStack, hscan, convertParent_branch,
                      Option.map_some']] at hstep
                  simp only [Option.map_some', Option.some.injEq] at hstep
                  subst hstep
                  obtain ⟨hc1, hc2⟩ := convertItems_ok t items hentry
                  simp only [stateOk, Bool.and_eq_true]
                  refine ⟨⟨hsent, rfl⟩, ?_⟩
                  simp only [stackOk, Bool.and_eq_true]
                  refine ⟨⟨rfl, rfl⟩, ?_⟩
                  rw [List.append_assoc, List.singleton_append]
                  refine stackOk_branches bs _ hbs ?_
                  simp only [stackOk, Bool.and_eq_true]
                  refine ⟨⟨?_, ?_⟩, ?_⟩
                  · simp [entryOk, hc1, hc2]
                  · rcases hr with rfl | ⟨r2, rfl, _, _⟩ <;> rfl
                  · rcases hr with rfl | ⟨r2, rfl, hhr2, hsr2⟩
                    · rfl
                    · simp only [stackOk, Bool.and_eq_true]
                      exact ⟨hhr2, hsr2⟩
  | enterRuleRef name =>
      simp only [step] at hstep
      cases ha : appendToTarget stack (Expression.ruleReference name) with
      | none => rw [ha] at hstep; simp at hstep
      | some stk' =>
          rw [ha] at hstep
          simp only [Option.map_some', Option.some.injEq] at hstep
          subst hstep
          obtain ⟨hh4, hs4⟩ := appendToTarget_ok stack _ hhead hstack
            (by simp [treeOk]) stk' ha
          simp [stateOk, hsent, hh4, hs4]
  | enterListRef name =>
      simp only [step] at hstep
      cases ha : appendToTarget stack (Expression.listReference name) with
      | none => rw [ha] at hstep; simp at hstep
      | some stk' =>
          rw [ha] at hstep
          simp only [Option.map_some', Option.some.injEq] at hstep
          subst hstep
          obtain ⟨hh4, hs4⟩ := appendToTarget_ok stack _ hhead hstack
            (by simp [treeOk]) stk' ha
          simp [stateOk, hsent, hh4, hs4]
  | enterWord raw =>
      simp only [step] at hstep
      cases ha : appendToTarget stack (classifyWord raw) with
      | none => rw [ha] at hstep; simp at hstep
      | some stk' =>
          rw [ha] at hstep
          simp only [Option.map_some', Option.some.injEq] at hstep
          subst hstep
          obtain ⟨hh4, hs4⟩ := appendToTarget_ok stack _ hhead hstack
            (treeOk_classifyWord raw) stk' ha
          simp [stateOk, hsent, hh4, hs4]

/-- Running any event stream preserves the listener invariant. -/
theorem runEvents_stateOk (evs : List Event) :
    ∀ st st', stateOk st = true → runEvents st evs = some st' →
      stateOk st' = true := by
  induction evs with
  | nil =>
      intro st st' h hrun
      obtain rfl := Option.some.inj hrun
      exact h
  | cons e evs ih =>
      intro st st' h hrun
      rw [runEvents_cons] at hrun
      cases hstep : step st e with
      | none => rw [hstep] at hrun; simp at hrun
      | some st1 =>
          rw [hstep] at hrun
          simp only [Option.some_bind] at hrun
          exact ih st1 st' (step_stateOk st st1 e h hstep) hrun

/-- C1: on an alternation-separator event inside a group or optional (a
marker lies below the enclosing scope on the stack, `bs` being the branches
already stacked above the scope, topmost first), if the scope is not already
an ALTERNATIVE its non-empty items are wrapped into a single nested GROUP
sequence and its kind becomes ALTERNATIVE; in all cases a fresh empty GROUP
is pushed (without a marker) as the new current target, and — as the second
conjunct shows via the pop-time view of the scope's items — that fresh group
is the new last item of the scope. -/
theorem enterAlt_rewrites_enclosing_scope
    (sents : List Expression) (op : Bool)
    (bs : List (SequenceType × List Expression)) (t : SequenceType)
    (items : List Expression) (rest : List StackEntry) :
    step ⟨sents, op,
          branchStack bs ++ StackEntry.seq t items :: StackEntry.marker :: rest⟩
        Event.enterAlt
      = some ⟨sents, op,
          StackEntry.seq SequenceType.group [] ::
            (branchStack bs ++
              StackEntry.seq SequenceType.alternative
                (if t = SequenceType.alternative then items
                 else if items.isEmpty then items
                 else [Expression.sequence SequenceType.group items]) ::
              StackEntry.marker :: rest)⟩ ∧
    popGroup (StackEntry.seq SequenceType.group [] ::
          branchStack bs ++
            StackEntry.seq SequenceType.alternative
              (if t = SequenceType.alternative then items
               else if items.isEmpty then items
               else [Expression.sequence SequenceType.group items]) ::
            StackEntry.marker :: rest)
      = some ((SequenceType.alternative,
          (if t = SequenceType.alternative then items
           else if items.isEmpty then items
           else [Expression.sequence SequenceType.group items]) ++
            (branchExprs bs).reverse ++ [Expression.sequence SequenceType.group []]),
          rest) := by
  constructor
  · simp only [step, enterAltStack, scanParent_branch, convertParent_branch,
               Option.map_some]
    simp [convertItems, List.append_assoc]
  · rw [popGroup_branch]

/-- C2 counterexample: compiling `"(a | b c)"` yields an ALTERNATIVE whose
first item is the GROUP `[Word "a"]` — `enterAlt` wraps the accumulated
items into a group even when there is only one (`if sequence.items:`,
line 95) — and a GROUP containing a bare word is not that word, so the
claimed first item `Word "a"` is wrong. -/
theorem paren_alt_first_item_wrapped_cex :
    parse_sentences initListener ["(a | b c)"]
      = some ⟨[Expression.sequence SequenceType.group
          [Expression.sequence SequenceType.alternative
            [Expression.sequence SequenceType.group [Expression.word "a"],
             Expression.sequence SequenceType.group
               [Expression.word "b", Expression.word "c"]]]],
          false, []⟩ ∧
    Expression.sequence SequenceType.group [Expression.word "a"]
      ≠ Expression.word "a" :=
  ⟨rfl, by simp⟩

/-- C2 (amended): compiling `"(a | b c)"` yields one Sentence whose root is
a GROUP containing exactly one ALTERNATIVE with exactly two items: a nested
GROUP containing `Word "a"` (the single accumulated item is still wrapped),
and a nested GROUP `[Word "b", Word "c"]`. -/
theorem paren_alt_compiled_tree :
    parse_sentences initListener ["(a | b c)"]
      = some ⟨[Expression.sequence SequenceType.group
          [Expression.sequence SequenceType.alternative
            [Expression.sequence SequenceType.group [Expression.word "a"],
             Expression.sequence SequenceType.group
               [Expression.word "b", Expression.word "c"]]]],
          false, []⟩ := rfl

/-- C3: whenever an end-optional event succeeds, the expression it appends
to the current target is a Sequence of kind ALTERNATIVE whose final item is
`Word ""` — the empty match is an explicit trailing item (lines 72-87). -/
theorem exitOptional_appends_alternative_empty_word
    (st st' : ListenerState) (h : step st Event.exitOptional = some st') :
    ∃ (t₂ : SequenceType) (its pre : List Expression) (rest : List StackEntry),
      st'.stack = StackEntry.seq t₂
          (its ++ [Expression.sequence SequenceType.alternative
            (pre ++ [Expression.word ""])]) :: rest ∧
      st'.sentences = st.sentences := by
  simp only [step] at h
  cases hp : popGroup st.stack with
  | none => rw [hp] at h; exact absurd h (by simp)
  | some g =>
      rw [hp] at h
      obtain ⟨⟨t, items⟩, rest⟩ := g
      cases hrest : rest with
      | nil => simp [hrest, appendToTarget] at h
      | cons e rest' =>
          cases e with
          | marker => simp [hrest, appendToTarget] at h
          | seq t₂ its =>
              rw [hrest] at h
              simp only [appendToTarget] at h
              injection h with h3
              subst h3
              exact ⟨t₂, its,
                (if t = SequenceType.alternative then items
                 else if 1 < items.length
                 then [Expression.sequence SequenceType.group items] else items),
                rest', rfl, rfl⟩

/-- C3 witness: a concrete end-optional step (the optional scaffold holding
`Word "the"`) appends `ALTERNATIVE [Word "the", Word ""]`. -/
theorem exitOptional_appends_alternative_empty_word_witness :
    ∃ (t₂ : SequenceType) (its pre : List Expression) (rest : List StackEntry),
      (ListenerState.mk []  true
          [StackEntry.seq SequenceType.group
            [Expression.sequence SequenceType.alternative
              [Expression.word "the", Expression.word ""]]]).stack
        = StackEntry.seq t₂
            (its ++ [Expression.sequence SequenceType.alternative
              (pre ++ [Expression.word ""])]) :: rest ∧
      (ListenerState.mk []  true
          [StackEntry.seq SequenceType.group
            [Expression.sequence SequenceType.alternative
              [Expression.word "the", Expression.word ""]]]).sentences
        = (ListenerState.mk []  true
            [StackEntry.seq SequenceType.group [Expression.word "the"],
             StackEntry.marker,
             StackEntry.seq SequenceType.group []]).sentences :=
  exitOptional_appends_alternative_empty_word
    ⟨[], true,
      [StackEntry.seq SequenceType.group [Expression.word "the"],
       StackEntry.marker, StackEntry.seq SequenceType.group []]⟩
    ⟨[], true,
      [StackEntry.seq SequenceType.group
        [Expression.sequence SequenceType.alternative
          [Expression.word "the", Expression.word ""]]]⟩
    rfl

/-- C5 counterexample: an alternation-separator event with no marker
anywhere below the top (the stack is just the sentence root) does not fail:
`last_parent_sequence`'s loop leaves the bottom sequence as the parent when
no marker is found and the `assert parent_sequence` passes, so compilation
silently produces a tree (the sentence root itself becomes an
ALTERNATIVE). -/
theorem alt_without_marker_produces_tree_cex :
    runEvents initListener
        [Event.enterSentence, Event.enterAlt, Event.enterWord "a",
         Event.exitSentence]
      = some ⟨[Expression.sequence SequenceType.alternative
          [Expression.sequence SequenceType.group [Expression.word "a"]]],
          false, []⟩ := rfl

/-- C5 (amended): the enclosing-scope lookup fails only when the stack is
empty or a marker sits on top; when the stack contains no marker at all,
the lookup instead returns the bottom-most sequence (the sentence root),
which is converted to an ALTERNATIVE and compilation proceeds. -/
theorem enterAlt_scope_lookup_behavior
    (sents : List Expression) (op : Bool)
    (bs : List (SequenceType × List Expression)) (t : SequenceType)
    (items : List Expression) (rest : List StackEntry) :
    step ⟨sents, op, []⟩ Event.enterAlt = none ∧
    step ⟨sents, op, StackEntry.marker :: rest⟩ Event.enterAlt = none ∧
    step ⟨sents, op, branchStack bs ++ [StackEntry.seq t items]⟩ Event.enterAlt
      = some ⟨sents, op,
          StackEntry.seq SequenceType.group [] ::
            (branchStack bs ++
              [StackEntry.seq SequenceType.alternative (convertItems t items)])⟩ := by
  refine ⟨?_, ?_, ?_⟩
  · simp [step, enterAltStack, scanParent, convertParent]
  · simp [step, enterAltStack, scanParent, convertParent]
  · simp [step, enterAltStack, scanParent_noMarker, convertParent_branch]

/-- C10: quote stripping happens before the number-pattern check, so any
token whose processed text (strip, then escape removal, then quote removal)
matches the integer pattern — including the quoted integer `"5"` — is
classified as a `Number`, never as a `Word`. -/
theorem quoted_integer_classified_number :
    classifyWord "\"5\"" = Expression.number 5 ∧
    ∀ (raw : String) (n : Int),
      numberPatternMatch (remove_quotes (remove_escapes (strip raw))) = some n →
      classifyWord raw = Expression.number n := by
  refine ⟨rfl, ?_⟩
  intro raw n h
  simp [classifyWord, h]

/-- C10 witness: the general implication applied to the quoted token
`"42"`. -/
theorem quoted_integer_classified_number_witness :
    classifyWord "\"42\"" = Expression.number 42 :=
  quoted_integer_classified_number.2 "\"42\"" 42 rfl

/-- C8 counterexample: compiling `"turn on [the] light"` yields the root
GROUP `[Word "turn", Word "on", ALTERNATIVE [Word "the", Word ""],
Word "light"]` — `turn` and `on` are two separate word tokens, so the
second item (index 1) is `Word "on"`, not an ALTERNATIVE, and the claimed
position of the ALTERNATIVE as the second item is false of the code. -/
theorem optional_template_second_item_cex :
    parse_sentences initListener ["turn on [the] light"]
      = some ⟨[Expression.sequence SequenceType.group
          [Expression.word "turn", Expression.word "on",
           Expression.sequence SequenceType.alternative
             [Expression.word "the", Expression.word ""],
           Expression.word "light"]],
          false, []⟩ ∧
    [Expression.word "turn", Expression.word "on",
     Expression.sequence SequenceType.alternative
       [Expression.word "the", Expression.word ""],
     Expression.word "light"][1]? = some (Expression.word "on") ∧
    Expression.word "on"
      ≠ Expression.sequence SequenceType.alternative
          [Expression.word "the", Expression.word ""] :=
  ⟨rfl, rfl, by simp⟩

/-- C8 (amended): compiling `"turn on [the] light"` yields one Sentence
whose root is a GROUP of exactly 4 items
`[Word "turn", Word "on", ALTERNATIVE, Word "light"]`, the third item being
the ALTERNATIVE whose items are exactly `[Word "the", Word ""]`. -/
theorem optional_template_compiled_tree :
    parse_sentences initListener ["turn on [the] light"]
      = some ⟨[Expression.sequence SequenceType.group
          [Expression.word "turn", Expression.word "on",
           Expression.sequence SequenceType.alternative
             [Expression.word "the", Expression.word ""],
           Expression.word "light"]],
          false, []⟩ := rfl

/-- C6: token classification operates on the whole token after stripping,
escape removal and quote removal, first match winning in the order integer,
range, word: the five sample tokens classify as stated, a token whose
processed text matches the integer pattern is always a `Number` (never a
`Word`), one matching the range pattern (and not the integer pattern) is
always a single `NumberRange` with step defaulting to 1, and only tokens
matching neither become `Word`s of the processed text. -/
theorem token_classification_ordered :
    classifyWord "5" = Expression.number 5 ∧
    classifyWord "1..10" = Expression.numberRange 1 10 1 ∧
    classifyWord "1..10..2" = Expression.numberRange 1 10 2 ∧
    classifyWord "hello" = Expression.word "hello" ∧
    classifyWord "\"a b\"" = Expression.word "a b" ∧
    (∀ (raw : String) (n : Int),
      numberPatternMatch (remove_quotes (remove_escapes (strip raw))) = some n →
      classifyWord raw = Expression.number n) ∧
    (∀ (raw : String) (lo hi : Int) (st : Option Int),
      numberPatternMatch (remove_quotes (remove_escapes (strip raw))) = none →
      numberRangePatternMatch (remove_quotes (remove_escapes (strip raw)))
        = some (lo, hi, st) →
      classifyWord raw = Expression.numberRange lo hi (st.getD 1)) ∧
    (∀ raw : String,
      numberPatternMatch (remove_quotes (remove_escapes (strip raw))) = none →
      numberRangePatternMatch (remove_quotes (remove_escapes (strip raw))) = none →
      classifyWord raw = Expression.word (remove_quotes (remove_escapes (strip raw)))) := by
  refine ⟨rfl, rfl, rfl, rfl, rfl, ?_, ?_, ?_⟩
  · intro raw n h
    simp [classifyWord, h]
  · intro raw lo hi st h1 h2
    simp [classifyWord, h1, h2]
  · intro raw h1 h2
    simp [classifyWord, h1, h2]

/-- C6 witness: the first-match-wins implications applied to concrete
tokens (`"7"` for the integer arm, `"2..9"` for the range arm, `"light"`
for the word arm). -/
theorem token_classification_ordered_witness :
    classifyWord "7" = Expression.number 7 ∧
    classifyWord "2..9" = Expression.numberRange 2 9 ((none : Option Int).getD 1) ∧
    classifyWord "light" = Expression.word "light" :=
  ⟨token_classification_ordered.2.2.2.2.2.1 "7" 7 rfl,
   token_classification_ordered.2.2.2.2.2.2.1 "2..9" 2 9 none rfl rfl,
   token_classification_ordered.2.2.2.2.2.2.2 "light" rfl rfl⟩

/-- C7: compiling the lines `["a", "b"]` yields exactly the two Sentences in
input order; and for every list of lines that is empty or all
blank/whitespace-only, the joined text is whitespace-only, so compilation is
skipped and the sentences list stays empty. -/
theorem parse_sentences_multiline_and_blank :
    parse_sentences initListener ["a", "b"]
      = some ⟨[Expression.sequence SequenceType.group [Expression.word "a"],
               Expression.sequence SequenceType.group [Expression.word "b"]],
          false, []⟩ ∧
    (∀ lines : List String,
      (∀ l ∈ lines, l.data.all Char.isWhitespace = true) →
      parse_sentences initListener lines = some initListener ∧
      initListener.sentences = []) := by
  refine ⟨rfl, ?_⟩
  intro lines h
  have hall : (joinLines lines).data.all Char.isWhitespace = true :=
    joinLines_all_ws lines h
  have hnil : stripChars ((joinLines lines).data ++ ['\n']) = [] := by
    refine stripChars_nil_of_all _ ?_
    rw [List.all_append]
    simp only [Bool.and_eq_true]
    exact ⟨hall, rfl⟩
  refine ⟨?_, rfl⟩
  simp [parse_sentences, hnil]

/-- C7 witness: the blank-input conjunct applied to the concrete all-blank
line list `["", "  "]`. -/
theorem parse_sentences_multiline_and_blank_witness :
    parse_sentences initListener ["", "  "] = some initListener ∧
    initListener.sentences = [] :=
  parse_sentences_multiline_and_blank.2 ["", "  "] (by decide)

/-- C4: in every Sentence produced by compilation — for every event stream
whose run succeeds — every ALTERNATIVE sequence of every produced tree
satisfies `altItemsOk` (first conjunct, via `treeOk`): apart from an
optional's trailing `Word ""`, an ALTERNATIVE with more than one item holds
only nested GROUP items, one wrapped item per branch; a branch's elements
are never left as multiple sibling entries.  The second and third conjuncts
exhibit the wrapping itself for both creation paths on arbitrary branch
contents: an alternation separator yields exactly one nested
`GROUP` item per branch, and a multi-token optional wraps its elements into
a single nested `GROUP` before the ALTERNATIVE conversion. -/
theorem alternative_items_complete :
    (∀ (evs : List Event) (st : ListenerState),
      runEvents initListener evs = some st →
      ∀ sent ∈ st.sentences, treeOk sent = true) ∧
    (∀ ws vs : List String, ws ≠ [] →
      runEvents initListener
          ((Event.enterSentence :: Event.enterGroup :: ws.map Event.enterWord) ++
            ((Event.enterAlt :: vs.map Event.enterWord) ++
              [Event.exitGroup, Event.exitSentence]))
        = some ⟨[Expression.sequence SequenceType.group
            [Expression.sequence SequenceType.alternative
              [Expression.sequence SequenceType.group (ws.map classifyWord),
               Expression.sequence SequenceType.group (vs.map classifyWord)]]],
            false, []⟩) ∧
    (∀ ws : List String, 1 < ws.length →
      runEvents initListener
          ((Event.enterSentence :: Event.enterOptional :: ws.map Event.enterWord) ++
            [Event.exitOptional, Event.exitSentence])
        = some ⟨[Expression.sequence SequenceType.group
            [Expression.sequence SequenceType.alternative
              [Expression.sequence SequenceType.group (ws.map classifyWord),
               Expression.word ""]]],
            false, []⟩) := by
  refine ⟨?_, ?_, ?_⟩
  · intro evs st hrun sent hmem
    have hst : stateOk st = true :=
      runEvents_stateOk evs initListener st rfl hrun
    have hall : st.sentences.all treeOk = true := by
      simp only [stateOk, Bool.and_eq_true] at hst
      exact hst.1.1
    exact List.all_eq_true.mp hall sent hmem
  · intro ws vs hws
    obtain ⟨w, ws0, rfl⟩ : ∃ w ws0, ws = w :: ws0 := by
      cases ws with
      | nil => exact absurd rfl hws
      | cons w ws0 => exact ⟨w, ws0, rfl⟩
    rw [runEvents_append, runEvents_cons,
        show step initListener Event.enterSentence
          = some ⟨[], true, [StackEntry.seq SequenceType.group []]⟩ from rfl,
        Option.some_bind, runEvents_cons,
        show step ⟨[], true, [StackEntry.seq SequenceType.group []]⟩ Event.enterGroup
          = some ⟨[], true,
              [StackEntry.seq SequenceType.group [], StackEntry.marker,
               StackEntry.seq SequenceType.group []]⟩ from rfl,
        Option.some_bind, runEvents_words, Option.some_bind,
        runEvents_append, runEvents_cons]
    rw [show step ⟨[], true,
          [StackEntry.seq SequenceType.group ([] ++ (w :: ws0).map classifyWord),
           StackEntry.marker, StackEntry.seq SequenceType.group []]⟩ Event.enterAlt
        = some ⟨[], true,
            [StackEntry.seq SequenceType.group [],
             StackEntry.seq SequenceType.alternative
               [Expression.sequence SequenceType.group ((w :: ws0).map classifyWord)],
             StackEntry.marker, StackEntry.seq SequenceType.group []]⟩ from by
      simp [step, enterAltStack, scanParent, convertParent, convertItems]]
    rw [Option.some_bind, runEvents_words, Option.some_bind, runEvents_cons]
    rw [show step ⟨[], true,
          [StackEntry.seq SequenceType.group ([] ++ vs.map classifyWord),
           StackEntry.seq SequenceType.alternative
             [Expression.sequence SequenceType.group ((w :: ws0).map classifyWord)],
           StackEntry.marker, StackEntry.seq SequenceType.group []]⟩ Event.exitGroup
        = some ⟨[], true,
            [StackEntry.seq SequenceType.group
              [Expression.sequence SequenceType.alternative
                [Expression.sequence SequenceType.group ((w :: ws0).map classifyWord),
                 Expression.sequence SequenceType.group (vs.map classifyWord)]]]⟩ from by
      simp [step, popGroup_cons_cons, popGroupLoop, asSeqExpr, appendToTarget]]
    rw [Option.some_bind, runEvents_cons]
    simp [step, finishBottom, asSeqExpr, runEvents]
  · intro ws h
    have hl : 1 < (ws.map classifyWord).length := by simpa using h
    rw [runEvents_append, runEvents_cons,
        show step initListener Event.enterSentence
          = some ⟨[], true, [StackEntry.seq SequenceType.group []]⟩ from rfl,
        Option.some_bind, runEvents_cons,
        show step ⟨[], true, [StackEntry.seq SequenceType.group []]⟩ Event.enterOptional
          = some ⟨[], true,
              [StackEntry.seq SequenceType.group [], StackEntry.marker,
               StackEntry.seq SequenceType.group []]⟩ from rfl,
        Option.some_bind, runEvents_words, Option.some_bind, runEvents_cons]
    rw [show step ⟨[], true,
          [StackEntry.seq SequenceType.group ([] ++ ws.map classifyWord),
           StackEntry.marker, StackEntry.seq SequenceType.group []]⟩ Event.exitOptional
        = some ⟨[], true,
            [StackEntry.seq SequenceType.group
              [Expression.sequence SequenceType.alternative
                [Expression.sequence SequenceType.group (ws.map classifyWord),
                 Expression.word ""]]]⟩ from by
      simp [step, popGroup_cons_cons, popGroupLoop, asSeqExpr, appendToTarget,
            finishOptional, hl, h]]
    rw [Option.some_bind, runEvents_cons]
    simp [step, finishBottom, asSeqExpr, runEvents]

/-- C4 witness: the universal invariant applied to the concrete compiled
sentence of `(a b | c) [d e]`, and the two wrapping conjuncts at concrete
inputs — the group `(a b | c)` and the optional `[x y]`. -/
theorem alternative_items_complete_witness :
    treeOk (Expression.sequence SequenceType.group
        [Expression.sequence SequenceType.alternative
          [Expression.sequence SequenceType.group
            [Expression.word "a", Expression.word "b"],
           Expression.sequence SequenceType.group [Expression.word "c"]],
         Expression.sequence SequenceType.alternative
          [Expression.sequence SequenceType.group
            [Expression.word "d", Expression.word "e"],
           Expression.word ""]]) = true ∧
    runEvents initListener
        ((Event.enterSentence :: Event.enterGroup ::
            ["a", "b"].map Event.enterWord) ++
          ((Event.enterAlt :: ["c"].map Event.enterWord) ++
            [Event.exitGroup, Event.exitSentence]))
      = some ⟨[Expression.sequence SequenceType.group
          [Expression.sequence SequenceType.alternative
            [Expression.sequence SequenceType.group
              (["a", "b"].map classifyWord),
             Expression.sequence SequenceType.group (["c"].map classifyWord)]]],
          false, []⟩ ∧
    runEvents initListener
        ((Event.enterSentence :: Event.enterOptional ::
            ["x", "y"].map Event.enterWord) ++
          [Event.exitOptional, Event.exitSentence])
      = some ⟨[Expression.sequence SequenceType.group
          [Expression.sequence SequenceType.alternative
            [Expression.sequence SequenceType.group
              (["x", "y"].map classifyWord),
             Expression.word ""]]],
          false, []⟩ :=
  ⟨alternative_items_complete.1
      [Event.enterSentence, Event.enterGroup, Event.enterWord "a",
       Event.enterWord "b", Event.enterAlt, Event.enterWord "c",
       Event.exitGroup, Event.enterOptional, Event.enterWord "d",
       Event.enterWord "e", Event.exitOptional, Event.exitSentence]
      ⟨[Expression.sequence SequenceType.group
          [Expression.sequence SequenceType.alternative
            [Expression.sequence SequenceType.group
              [Expression.word "a", Expression.word "b"],
             Expression.sequence SequenceType.group [Expression.word "c"]],
           Expression.sequence SequenceType.alternative
            [Expression.sequence SequenceType.group
              [Expression.word "d", Expression.word "e"],
             Expression.word ""]]], false, []⟩
      rfl _ (by simp),
   alternative_items_complete.2.1 ["a", "b"] ["c"] (by simp),
   alternative_items_complete.2.2 ["x", "y"] (by simp)⟩

/-- C9 counterexample: a second `parse_sentences` call on the same listener
does not behave as a fresh Builder — `self.sentences` accumulates
(`exitSentence` appends, line 51; nothing ever clears it), so the
observable result after the second invocation still contains the first
invocation's sentence and differs from a fresh Builder's result. -/
theorem sentences_accumulate_across_calls_cex :
    parse_sentences initListener ["a"]
      = some ⟨[Expression.sequence SequenceType.group [Expression.word "a"]],
          false, []⟩ ∧
    parse_sentences
        ⟨[Expression.sequence SequenceType.group [Expression.word "a"]],
          false, []⟩ ["b"]
      = some ⟨[Expression.sequence SequenceType.group [Expression.word "a"],
               Expression.sequence SequenceType.group [Expression.word "b"]],
          false, []⟩ ∧
    parse_sentences initListener ["b"]
      = some ⟨[Expression.sequence SequenceType.group [Expression.word "b"]],
          false, []⟩ ∧
    [Expression.sequence SequenceType.group [Expression.word "a"],
     Expression.sequence SequenceType.group [Expression.word "b"]]
      ≠ [Expression.sequence SequenceType.group [Expression.word "b"]] :=
  ⟨rfl, rfl, rfl, by simp⟩

/-- C9 (amended): state carries across invocations on the same Builder only
through the accumulated sentences list: a compile invocation never reads the
previously collected sentences (it only prepends them unchanged to what it
would produce from empty), and an event stream that begins with a
sentence-start event behaves identically whatever stack or current-sentence
state was left behind; hence the sentences a second invocation appends
depend only on its own input. -/
theorem compile_accumulates_only_sentences :
    (∀ (st : ListenerState) (lines : List String),
      parse_sentences st lines
        = (parse_sentences ⟨[], st.sentenceOpen, st.stack⟩ lines).map
            (fun r => ⟨st.sentences ++ r.sentences, r.sentenceOpen, r.stack⟩)) ∧
    (∀ (s : List Expression) (o o' : Bool) (k k' : List StackEntry)
        (evs : List Event),
      runEvents ⟨s, o, k⟩ (Event.enterSentence :: evs)
        = runEvents ⟨s, o', k'⟩ (Event.enterSentence :: evs)) := by
  constructor
  · intro st lines
    obtain ⟨ss, so, sk⟩ := st
    by_cases hb : stripChars ((joinLines lines).data ++ ['\n']) = []
    · simp [parse_sentences, hb]
    · simp [parse_sentences, hb]
      rw [runEvents_sentences]
  · intro s o o' k k' evs
    rw [runEvents_cons, runEvents_cons]
    rfl

end Hassil

